import Mathlib

/-
Shallow embedding of `src/misc/BitSet.ts` (antlr4ts fork).

Words are 16-bit unsigned integers stored in a growable array (`Uint16Array`
in the source, `List Nat` here, every stored word `< 2^16`).  JavaScript
semantics that matter for faithfulness:
  * `x >>> 4` coerces `x` to an unsigned 32-bit integer before shifting
    (`toUint32` below), which is how negative inputs reach huge indices;
  * reading a typed array out of bounds yields `undefined`, which behaves
    as `0` inside bitwise expressions (`List.getD _ _ 0` below);
  * writing a typed array out of bounds is silently ignored (`List.set`
    is a no-op out of bounds, matching this);
  * storing into a `Uint16Array` coerces the value modulo 2^16.
Methods that can throw (`RangeError`) return `Option`; `none` models the
thrown exception.
-/

namespace Antlr4ts

/-- JavaScript ToUint32 coercion applied by the `>>>` operator. -/
def toUint32 (n : Int) : Nat := (n % (2 ^ 32 : Int)).toNat

/-- `getIndex(bitNumber) = bitNumber >>> 4` from the source: word index of the
word containing the given bit. -/
def getIndex (bitNumber : Int) : Nat := toUint32 bitNumber >>> 4

/-- `unIndex(n) = n * 16` from the source: bit index of the LSB of word `n`. -/
def unIndex (n : Int) : Int := n * 16

/-- JavaScript `x & 0xF` for a (possibly negative) integer `x`. -/
def and15 (n : Int) : Nat := (n % 16).toNat

/-- `findLSBSet(word)`: index of the least significant set bit among bits
0..15; the source throws `RangeError` when no bit is found (`none` here). -/
def findLSBSet (word : Nat) : Option Nat :=
  (List.range 16).find? (fun i => word.testBit i)

/-- `findMSBSet(word)`: index of the most significant set bit among bits
15..0; the source throws `RangeError` when no bit is found (`none` here). -/
def findMSBSet (word : Nat) : Option Nat :=
  (List.range 16).reverse.find? (fun i => word.testBit i)

/-- `bitsFor(fromBit, toBit)`: 16-bit mask with bit numbers
`fromBit & 0xF` to `toBit & 0xF` (inclusive) set; a single-bit mask when the
two reduced offsets coincide. -/
def bitsFor (fromBit toBit : Int) : Nat :=
  let f := and15 fromBit
  let t := and15 toBit
  if f = t then 1 <<< f
  else (0xFFFF >>> (15 - t)) ^^^ (0xFFFF >>> (16 - f))

/-- Value of the `POP_CNT` lookup table at a 16-bit word: its set-bit count
(the source builds the table by incrementing, for each bit position, the
entries whose index has that bit set). -/
def popCnt (n : Nat) : Nat :=
  ((List.range 16).filter (fun i => n.testBit i)).length

/-- The BitSet: the sole field `data` is the stored word array. -/
structure BitSet where
  data : List Nat
deriving DecidableEq

/-- Typed-array read at a possibly negative index: out-of-bounds reads give
`undefined`, which is `0` in bitwise contexts. -/
def wordAt (d : List Nat) (i : Int) : Nat :=
  if i < 0 then 0 else d.getD i.toNat 0

/-- Typed-array store: coerces the value modulo 2^16 and ignores
out-of-bounds writes. -/
def storeWord (d : List Nat) (i : Nat) (v : Nat) : List Nat :=
  d.set i (v % 65536)

/-- Index of the last non-zero word among indices `0 ≤ i < words` of `d`,
or `-1` when all are zero: the `lastWord` tracking variable of the
set-algebra loops. -/
def lastNonZeroBelow (d : List Nat) (words : Nat) : Int :=
  match (List.range words).reverse.find? (fun i => d.getD i 0 != 0) with
  | some i => (i : Int)
  | none => -1

/-- `BitSet.and`: word-wise AND over the first `min` words (in place in the
source), then the trailing-zero trim exactly as written: `data = EMPTY` when
`lastWord === -1`, and `data = data.slice(0, lastWord + 1)` when
`lastWord < data.length - 1`. -/
def BitSet.and (b other : BitSet) : BitSet :=
  let words := min b.data.length other.data.length
  let d := b.data.mapIdx (fun i v => if i < words then v &&& other.data.getD i 0 else v)
  let lastWord := lastNonZeroBelow d words
  let d1 := if lastWord = -1 then ([] : List Nat) else d
  if lastWord < (d.length : Int) - 1 then ⟨d.take (lastWord + 1).toNat⟩ else ⟨d1⟩

/-- `BitSet.andNot`: word-wise `data[i] &= other[i] ^ 0xFFFF` over the first
`min` words, then the same trim as `and` (note `lastWord` is only tracked
over those `min` words). -/
def BitSet.andNot (b other : BitSet) : BitSet :=
  let words := min b.data.length other.data.length
  let d := b.data.mapIdx (fun i v => if i < words then v &&& (other.data.getD i 0 ^^^ 0xFFFF) else v)
  let lastWord := lastNonZeroBelow d words
  let d1 := if lastWord = -1 then ([] : List Nat) else d
  if lastWord < (d.length : Int) - 1 then ⟨d.take (lastWord + 1).toNat⟩ else ⟨d1⟩

/-- `BitSet.or`: OR of the common prefix, verbatim copy of the longer tail,
then the final reassignment exactly as in the source: note the last branch
is `dest.slice(0, lastWord)` (no `+ 1`). -/
def BitSet.or (b other : BitSet) : BitSet :=
  let data := b.data
  let o := other.data
  let minWords := min data.length o.length
  let words := max data.length o.length
  let longer := if o.length < data.length then data else o
  let dest := (List.range words).map
    (fun i => if i < minWords then data.getD i 0 ||| o.getD i 0 else longer.getD i 0)
  let lastWord := lastNonZeroBelow dest words
  if lastWord = -1 then ⟨[]⟩
  else if (dest.length : Int) = lastWord + 1 then ⟨dest⟩
  else ⟨dest.take lastWord.toNat⟩

/-- `BitSet.xor`: XOR of the common prefix, verbatim copy of the longer
tail, final branch `dest.slice(0, lastWord + 1)`. -/
def BitSet.xor (b other : BitSet) : BitSet :=
  let data := b.data
  let o := other.data
  let minWords := min data.length o.length
  let words := max data.length o.length
  let longer := if o.length < data.length then data else o
  let dest := (List.range words).map
    (fun i => if i < minWords then data.getD i 0 ^^^ o.getD i 0 else longer.getD i 0)
  let lastWord := lastNonZeroBelow dest words
  if lastWord = -1 then ⟨[]⟩
  else if (dest.length : Int) = lastWord + 1 then ⟨dest⟩
  else ⟨dest.take (lastWord + 1).toNat⟩

/-- `BitSet.get(bitIndex)` (single-bit form):
`!!(data[getIndex(bitIndex)] & bitsFor(bitIndex, bitIndex))`.  The source
performs no negative-index validation in this method. -/
def BitSet.get (b : BitSet) (bitIndex : Int) : Bool :=
  b.data.getD (getIndex bitIndex) 0 &&& bitsFor bitIndex bitIndex != 0

/-- `BitSet._setBits(word, value, mask)`: OR the mask in, or AND its
complement. -/
def setBits (d : List Nat) (word : Nat) (value : Bool) (mask : Nat) : List Nat :=
  if value then storeWord d word (d.getD word 0 ||| mask)
  else storeWord d word (d.getD word 0 &&& (0xFFFF ^^^ mask))

/-- Tail of `BitSet.set` after growth/clamping: first partial word, interior
fill, last partial word (single-word case uses one mask). -/
def setCore (d : List Nat) (word lastWord : Nat) (fromIndex toIndex : Int) (value : Bool) :
    List Nat :=
  if word = lastWord then
    setBits d word value (bitsFor fromIndex toIndex)
  else
    let d1 := setBits d word value (bitsFor fromIndex 15)
    let d2 := d1.mapIdx (fun i v =>
      if word + 1 ≤ i ∧ i < lastWord then (if value then 0xFFFF else 0) else v)
    setBits d2 lastWord value (bitsFor 0 toIndex)

/-- `BitSet.set(fromIndex, toIndex, value)` after overload resolution:
validation, growth when setting past capacity, early exit / clamping when
clearing, then `setCore`.  `none` models the thrown `RangeError`. -/
def BitSet.setRangeValue (b : BitSet) (fromIndex toIndex : Int) (value : Bool) :
    Option BitSet :=
  if fromIndex < 0 ∨ toIndex < fromIndex then none
  else
    let word := getIndex fromIndex
    let lastWord := getIndex toIndex
    if value ∧ b.data.length ≤ lastWord then
      let d := b.data ++ List.replicate (lastWord + 1 - b.data.length) 0
      some ⟨setCore d word lastWord fromIndex toIndex value⟩
    else if ¬value ∧ b.data.length ≤ word then
      some b
    else if ¬value ∧ b.data.length ≤ lastWord then
      some ⟨setCore b.data word (b.data.length - 1) fromIndex ((b.data.length : Int) * 16 - 1) value⟩
    else
      some ⟨setCore b.data word lastWord fromIndex toIndex value⟩

/-- `set(bitIndex)` overload: `toIndex = fromIndex`, `value = true`. -/
def BitSet.setBit (b : BitSet) (bitIndex : Int) : Option BitSet :=
  b.setRangeValue bitIndex bitIndex true

/-- `set(bitIndex, value)` overload. -/
def BitSet.setBitValue (b : BitSet) (bitIndex : Int) (value : Bool) : Option BitSet :=
  b.setRangeValue bitIndex bitIndex value

/-- `set(fromIndex, toIndex)` overload: `value = true`. -/
def BitSet.setRange (b : BitSet) (fromIndex toIndex : Int) : Option BitSet :=
  b.setRangeValue fromIndex toIndex true

/-- `BitSet.flip(fromIndex, toIndex)`: validation then the three-phase XOR;
the single-bit overload passes `toIndex = fromIndex`. -/
def BitSet.flip (b : BitSet) (fromIndex toIndex : Int) : Option BitSet :=
  if fromIndex < 0 ∨ toIndex < fromIndex then none
  else
    let word := getIndex fromIndex
    let lastWord := getIndex toIndex
    if word = lastWord then
      some ⟨storeWord b.data word (b.data.getD word 0 ^^^ bitsFor fromIndex toIndex)⟩
    else
      let d1 := storeWord b.data word (b.data.getD word 0 ^^^ bitsFor fromIndex 15)
      let d2 := d1.mapIdx (fun i v => if word + 1 ≤ i ∧ i < lastWord then v ^^^ 0xFFFF else v)
      some ⟨storeWord d2 lastWord (d2.getD lastWord 0 ^^^ bitsFor 0 toIndex)⟩

/-- `flip(bitIndex)` overload. -/
def BitSet.flipBit (b : BitSet) (bitIndex : Int) : Option BitSet :=
  b.flip bitIndex bitIndex

/-- First index `i` with `start ≤ i < d.length` whose word differs from `0`
(the forward scan loop of `nextSetBit`). -/
def findUpNonZero (d : List Nat) (start : Nat) : Option Nat :=
  (List.range d.length).find? (fun i => decide (start ≤ i) && (d.getD i 0 != 0))

/-- First index `i` with `start ≤ i < d.length` whose word differs from
`0xFFFF` (the forward scan loop of `nextClearBit`). -/
def findUpNotAllOnes (d : List Nat) (start : Nat) : Option Nat :=
  (List.range d.length).find? (fun i => decide (start ≤ i) && (d.getD i 0 != 0xFFFF))

/-- Greatest index `i ≤ w` (with `i < d.length`) whose word differs from `0`
(the backward scan loop of `previousSetBit`). -/
def findDownNonZero (d : List Nat) (w : Int) : Option Nat :=
  (List.range d.length).reverse.find? (fun i => decide ((i : Int) ≤ w) && (d.getD i 0 != 0))

/-- Greatest index `i ≤ w` (with `i < d.length`) whose word differs from
`0xFFFF` (the backward scan loop of `previousClearBit`). -/
def findDownNotAllOnes (d : List Nat) (w : Int) : Option Nat :=
  (List.range d.length).reverse.find? (fun i => decide ((i : Int) ≤ w) && (d.getD i 0 != 0xFFFF))

/-- `BitSet.nextSetBit(fromIndex)`.  `none` is the `RangeError` on a
negative argument (or an unreachable `findLSBSet` failure); the source
returns `-1` when the scan runs off the end.  Note the source's entry check
is the strict `word > length`. -/
def BitSet.nextSetBit (b : BitSet) (fromIndex : Int) : Option Int :=
  if fromIndex < 0 then none
  else
    let data := b.data
    let word := getIndex fromIndex
    if data.length < word then some (-1)
    else
      let mask := bitsFor fromIndex 15
      if data.getD word 0 &&& mask = 0 then
        match findUpNonZero data (word + 1) with
        | none => some (-1)
        | some w => (findLSBSet (data.getD w 0 &&& 0xFFFF)).map (fun i => unIndex w + i)
      else
        (findLSBSet (data.getD word 0 &&& mask)).map (fun i => unIndex word + i)

/-- `BitSet.nextClearBit(fromIndex)`.  Same shape as `nextSetBit` with the
`| ignore` masking; the entry check is again the strict `word > length`. -/
def BitSet.nextClearBit (b : BitSet) (fromIndex : Int) : Option Int :=
  if fromIndex < 0 then none
  else
    let data := b.data
    let word := getIndex fromIndex
    if data.length < word then some (-1)
    else
      let ignore := 0xFFFF ^^^ bitsFor fromIndex 15
      if data.getD word 0 ||| ignore = 0xFFFF then
        match findUpNotAllOnes data (word + 1) with
        | none => some (-1)
        | some w => (findLSBSet ((data.getD w 0 ||| 0) ^^^ 0xFFFF)).map (fun i => unIndex w + i)
      else
        (findLSBSet ((data.getD word 0 ||| ignore) ^^^ 0xFFFF)).map (fun i => unIndex word + i)

/-- `BitSet.previousSetBit(fromIndex)`: clamps the start word to
`length - 1` (which is `-1` on an empty store), masks off bits above
`fromIndex` in the first word, then scans down. -/
def BitSet.previousSetBit (b : BitSet) (fromIndex : Int) : Option Int :=
  if fromIndex < 0 then none
  else
    let data := b.data
    let word : Int :=
      if (data.length : Int) ≤ getIndex fromIndex then (data.length : Int) - 1
      else getIndex fromIndex
    let mask := bitsFor 0 fromIndex
    if wordAt data word &&& mask = 0 then
      match findDownNonZero data (word - 1) with
      | none => some (-1)
      | some w => (findMSBSet (data.getD w 0 &&& 0xFFFF)).map (fun i => unIndex w + i)
    else
      (findMSBSet (wordAt data word &&& mask)).map (fun i => unIndex word + i)

/-- `BitSet.previousClearBit(fromIndex)`: same shape as `previousSetBit`
with the `| ignore` masking.  On an empty store the clamped `word` is `-1`
and the returned value is `unIndex(-1) + findMSBSet(...)`. -/
def BitSet.previousClearBit (b : BitSet) (fromIndex : Int) : Option Int :=
  if fromIndex < 0 then none
  else
    let data := b.data
    let word : Int :=
      if (data.length : Int) ≤ getIndex fromIndex then (data.length : Int) - 1
      else getIndex fromIndex
    let ignore := 0xFFFF ^^^ bitsFor 0 fromIndex
    if wordAt data word ||| ignore = 0xFFFF then
      match findDownNotAllOnes data (word - 1) with
      | none => some (-1)
      | some w => (findMSBSet ((data.getD w 0 ||| 0) ^^^ 0xFFFF)).map (fun i => unIndex w + i)
    else
      (findMSBSet ((wordAt data word ||| ignore) ^^^ 0xFFFF)).map (fun i => unIndex word + i)

/-- `BitSet.length()`: `previousSetBit(unIndex(data.length) - 1) + 1`, or
`0` on an empty store.  `Option` propagates the (unreachable on well-formed
words) internal scan failure. -/
def BitSet.lengthBits (b : BitSet) : Option Int :=
  if b.data.length = 0 then some 0
  else (b.previousSetBit (unIndex b.data.length - 1)).map (fun i => i + 1)

/-- `BitSet.isEmpty`: `length() === 0`. -/
def BitSet.isEmpty (b : BitSet) : Option Bool :=
  b.lengthBits.map (fun l => l == 0)

/-- `BitSet.cardinality()`: `0` when empty, otherwise the sum of `POP_CNT`
over every stored word. -/
def BitSet.cardinality (b : BitSet) : Option Nat :=
  b.isEmpty.map (fun e => if e then 0 else (b.data.map popCnt).sum)

/-- `BitSet.size`: `data.byteLength * 8`, i.e. 16 × word count. -/
def BitSet.size (b : BitSet) : Nat := b.data.length * 2 * 8

/-- `BitSet.equals(obj)` (argument already known to be a `BitSet`): equal
`length()`, then word-wise comparison up to the word covering the highest
set bit. -/
def BitSet.equals (a b : BitSet) : Option Bool :=
  match a.lengthBits, b.lengthBits with
  | some la, some lb =>
    if la ≠ lb then some false
    else if la = 0 then some true
    else some ((List.range (getIndex (la - 1) + 1)).all
      (fun i => a.data.getD i 0 == b.data.getD i 0))
  | _, _ => none

/-- 32-bit left rotation. -/
def rotl32 (x r : Nat) : Nat := ((x <<< r) ||| (x >>> (32 - r))) % 2 ^ 32

/-- Modelled from the spec: the update step of the repository's
`MurmurHash.hashCode` (`src/misc/MurmurHash.ts` is not part of the provided
sources).  The spec calls for "a order-sensitive hash over the stored word
sequence (any stable mixing hash, e.g. a Murmur-style finalizer, is
acceptable) seeded with a fixed constant"; this is the standard
MurmurHash3 32-bit per-word mixing step. -/
def murmurUpdate (hash value : Nat) : Nat :=
  let k := value * 0xCC9E2D51 % 2 ^ 32
  let k := rotl32 k 15
  let k := k * 0x1B873593 % 2 ^ 32
  let h := hash ^^^ k
  let h := rotl32 h 13
  (h * 5 + 0xE6546B64) % 2 ^ 32

/-- Modelled from the spec: the finalization step of the repository's
`MurmurHash.hashCode` — the standard MurmurHash3 32-bit avalanche over the
accumulated state and the element count. -/
def murmurFinish (hash numWords : Nat) : Nat :=
  let h := (hash ^^^ (numWords * 4 % 2 ^ 32)) % 2 ^ 32
  let h := h ^^^ (h >>> 16)
  let h := h * 0x85EBCA6B % 2 ^ 32
  let h := h ^^^ (h >>> 13)
  let h := h * 0xC2B2AE35 % 2 ^ 32
  h ^^^ (h >>> 16)

/-- Modelled from the spec: `MurmurHash.hashCode(data, seed)` — fold the
update step over the word sequence starting from the seed, then finalize
with the word count. -/
def murmurHashCode (data : List Nat) (seed : Nat) : Nat :=
  murmurFinish (data.foldl murmurUpdate seed) data.length

/-- `BitSet.hashCode()`: `MurmurHash.hashCode(this.data, 22)` — hashes the
stored word array as-is (trailing zero words included). -/
def BitSet.hashCode (b : BitSet) : Nat := murmurHashCode b.data 22

/-- `new BitSet()` / `new BitSet(0)`: the `!arg` branch, empty store. -/
def emptyBitSet : BitSet := ⟨[]⟩

/-- `new BitSet(nbits)` for a number argument: `0` is falsy and yields the
empty store; negative throws; otherwise `getIndex(nbits - 1) + 1` zero
words. -/
def fromNbits (nbits : Int) : Option BitSet :=
  if nbits = 0 then some ⟨[]⟩
  else if nbits < 0 then none
  else some ⟨List.replicate (getIndex (nbits - 1) + 1) 0⟩

/-- `new BitSet(numbers)` for a non-BitSet iterable: find the maximum
(starting from `-1`), allocate `getIndex(max - 1) + 1` zero words, then
`set` every element in turn. -/
def fromNumbers (l : List Nat) : Option BitSet :=
  let mx : Int := l.foldl (fun m (v : Nat) => if m < (v : Int) then (v : Int) else m) (-1)
  l.foldlM (fun b (v : Nat) => BitSet.setBit b (v : Int))
    (⟨List.replicate (getIndex (mx - 1) + 1) 0⟩ : BitSet)

/-- The `BitSetIterator` cursor: the word array, the current word index
(initially 0) and the remaining-bit mask within that word (initially
`0xFFFF`). -/
structure BitSetIterator where
  data : List Nat
  index : Nat
  mask : Nat
deriving DecidableEq

/-- The body of the `while (this.index < this.data.length)` loop of
`BitSetIterator.next()`, with explicit fuel bounding the number of loop
iterations (each iteration that does not return increments `index`, so the
loop runs at most `data.length + 1 - index` times). -/
def iterNextAux : Nat → BitSetIterator → Option (Nat × BitSetIterator)
  | 0, _ => none
  | fuel + 1, it =>
    if it.index < it.data.length then
      let bits := it.data.getD it.index 0 &&& it.mask
      if bits != 0 then
        match findLSBSet bits with
        | some lsb =>
          some (16 * it.index + lsb,
            ⟨it.data, it.index, bitsFor ((16 * it.index + lsb : Nat) + 1) 15⟩)
        | none => none
      else
        iterNextAux fuel ⟨it.data, it.index + 1, 0xFFFF⟩
    else
      none

/-- `BitSetIterator.next()`: scan for a word with a remaining set bit, emit
its lowest remaining bit and shrink the mask to `bitsFor(bitNumber + 1, 15)`;
`none` models both `{done: true}` at the end of the store and the
(unreachable on 16-bit words) `findLSBSet` failure. -/
def iterNext (it : BitSetIterator) : Option (Nat × BitSetIterator) :=
  iterNextAux (it.data.length + 1 - it.index) it

/-- `bs[Symbol.iterator]()`: a fresh cursor over the current word array. -/
def BitSet.iterator (b : BitSet) : BitSetIterator := ⟨b.data, 0, 0xFFFF⟩

/-- Drive the cursor at most `n` steps, collecting emitted bit indices. -/
def iterTake : Nat → BitSetIterator → List Nat
  | 0, _ => []
  | n + 1, it =>
    match iterNext it with
    | none => []
    | some (v, it') => v :: iterTake n it'

/-- The running maximum computed by the iterable constructor stays `0` on an
all-zero list when it starts at `0`. -/
lemma foldl_max_zero_of_all_zero (l : List Nat) (h : ∀ v ∈ l, v = 0) :
    l.foldl (fun m (v : Nat) => if m < (v : Int) then (v : Int) else m) 0 = 0 := by
  induction l with
  | nil => rfl
  | cons a t ih =>
    have ha : a = 0 := h a (List.mem_cons_self a t)
    have ht : ∀ v ∈ t, v = 0 := fun v hv => h v (List.mem_cons_of_mem a hv)
    subst ha
    simp only [List.foldl_cons, Nat.cast_zero, lt_self_iff_false, if_false]
    exact ih ht

/-- On an all-zero list the iterable constructor's running maximum (seeded
with `-1`) ends at `-1` (empty list) or `0` (non-empty list). -/
lemma foldl_max_of_all_zero (l : List Nat) (h : ∀ v ∈ l, v = 0) :
    l.foldl (fun m (v : Nat) => if m < (v : Int) then (v : Int) else m) (-1) = -1 ∨
    l.foldl (fun m (v : Nat) => if m < (v : Int) then (v : Int) else m) (-1) = 0 := by
  cases l with
  | nil => exact Or.inl rfl
  | cons a t =>
    refine Or.inr ?_
    have ha : a = 0 := h a (List.mem_cons_self a t)
    have ht : ∀ v ∈ t, v = 0 := fun v hv => h v (List.mem_cons_of_mem a hv)
    subst ha
    simp only [List.foldl_cons, Nat.cast_zero, if_pos (show (-1 : Int) < 0 by norm_num)]
    exact foldl_max_zero_of_all_zero t ht

/-- `set(0)` on a BitSet with a non-empty store succeeds and keeps the word
count: no growth is needed, only word 0 is updated in place. -/
lemma setBit_zero_length (b : BitSet) (h : 0 < b.data.length) :
    ∃ b', b.setBit 0 = some b' ∧ b'.data.length = b.data.length := by
  have hg : getIndex 0 = 0 := rfl
  have hlen : ¬ b.data.length ≤ 0 := by omega
  refine ⟨⟨setBits b.data 0 true (bitsFor 0 0)⟩, ?_, ?_⟩
  · simp [BitSet.setBit, BitSet.setRangeValue, setCore, hg, hlen]
  · simp [setBits, storeWord]

/-- Folding `set(v)` over an all-zero list of elements keeps the store's
word count, provided the store is non-empty. -/
lemma foldlM_setBit_all_zero (l : List Nat) (h : ∀ v ∈ l, v = 0) :
    ∀ b : BitSet, 0 < b.data.length →
      ∃ b', l.foldlM (fun b (v : Nat) => BitSet.setBit b (v : Int)) b = some b' ∧
        b'.data.length = b.data.length := by
  induction l with
  | nil => exact fun b _ => ⟨b, rfl, rfl⟩
  | cons a t ih =>
    intro b hb
    have ha : a = 0 := h a (List.mem_cons_self a t)
    have ht : ∀ v ∈ t, v = 0 := fun v hv => h v (List.mem_cons_of_mem a hv)
    subst ha
    obtain ⟨b1, hb1, hl1⟩ := setBit_zero_length b hb
    obtain ⟨b', hb', hl'⟩ := ih ht b1 (by omega)
    refine ⟨b', ?_, by omega⟩
    rw [List.foldlM_cons]
    have hc : ((0 : Nat) : Int) = 0 := by norm_num
    rw [hc, hb1]
    simpa using hb'

/-- The degenerate word-index computations of the constructor:
`getIndex(-1) = getIndex(-2) = 2^28 - 1`, because `>>>` first coerces its
argument to an unsigned 32-bit integer. -/
lemma getIndex_neg_one : getIndex (-1) = 2 ^ 28 - 1 := by decide

lemma getIndex_neg_two : getIndex (-2) = 2 ^ 28 - 1 := by decide

/-- C1: the claim states that after `A.or(B)` every bit `k` below
`max(A.size, B.size)` satisfies `A.get(k) = old A.get(k) || B.get(k)`.  The
code violates it: for `A = new BitSet(17); A.set(0)` (stored words `[1, 0]`)
and `B = new BitSet()`, bit 0 of `A` is `true` and bit 0 of `B` is `false`
before the call, yet after `A.or(B)` bit 0 reads `false` — the final
reassignment `dest.slice(0, lastWord)` drops the last non-zero word. -/
theorem claim_C1_or_loses_last_word :
    fromNbits 17 = some ⟨[0, 0]⟩ ∧
    BitSet.setBit ⟨[0, 0]⟩ 0 = some ⟨[1, 0]⟩ ∧
    BitSet.get ⟨[1, 0]⟩ 0 = true ∧
    BitSet.get ⟨[]⟩ 0 = false ∧
    (BitSet.or ⟨[1, 0]⟩ ⟨[]⟩).get 0 = false ∧
    (BitSet.or ⟨[1, 0]⟩ ⟨[]⟩).data = [] := by decide

/-- C2: the claim states that after `A.andNot(B)` every bit `k` satisfies
`A.get(k) = old A.get(k) && !B.get(k)`, in particular that words of `A`
beyond `B`'s stored words are unchanged.  The code violates it: for
`A = {16}` (stored words `[0, 1]`) and `B = {0}` (stored words `[1]`),
bit 16 is set in `A` and clear in `B`, yet after `A.andNot(B)` bit 16 reads
`false` — `lastWord` is only tracked over the first `min` words, so the
trim `data.slice(0, lastWord + 1)` discards `A`'s tail words. -/
theorem claim_C2_andNot_truncates_high_words :
    BitSet.setBit ⟨[0]⟩ 16 = some ⟨[0, 1]⟩ ∧
    BitSet.get ⟨[0, 1]⟩ 16 = true ∧
    BitSet.get ⟨[1]⟩ 16 = false ∧
    (BitSet.andNot ⟨[0, 1]⟩ ⟨[1]⟩).get 16 = false ∧
    (BitSet.andNot ⟨[0, 1]⟩ ⟨[1]⟩).data = [] := by decide

/-- C3: the claim states that iterating a BitSet built from a finite set S
yields exactly S in ascending order without duplicates and then signals
exhaustion.  The code violates it for any S containing a bit index that is
15 modulo 16: after emitting bit 15 of a word, the new mask
`bitsFor(16, 15)` wraps around to the full `0xFFFF`, so the cursor re-emits
the same bit forever.  `new BitSet([15])` stores `[0x8000]`, and the first
three `next()` calls all yield 15. -/
theorem claim_C3_iterator_repeats_bit_15 :
    fromNumbers [15] = some ⟨[32768]⟩ ∧
    iterTake 3 (BitSet.iterator ⟨[32768]⟩) = [15, 15, 15] := by decide

/-- C4: the claim states that after each of and/andNot/xor/or the stored
array's last word is non-zero or the array is empty.  The code violates it
for `or`: with `A = new BitSet(48); A.set(16)` (stored `[0, 1, 0]`) and
`B = new BitSet()`, the result of `A.or(B)` is the one-word store `[0]` —
non-empty with a zero last word (the slice should keep `lastWord + 1 = 2`
words, i.e. `[0, 1]`, but keeps `lastWord = 1` word). -/
theorem claim_C4_or_breaks_trim_invariant :
    fromNbits 48 = some ⟨[0, 0, 0]⟩ ∧
    BitSet.setBit ⟨[0, 0, 0]⟩ 16 = some ⟨[0, 1, 0]⟩ ∧
    (BitSet.or ⟨[0, 1, 0]⟩ ⟨[]⟩).data = [0] ∧
    (BitSet.or ⟨[0, 1, 0]⟩ ⟨[]⟩).data.getLast? = some 0 := by decide

/-- C5: the claim states that `equals` implies equal `hashCode`, the hash
being computed over the trimmed word sequence.  The code violates it:
`hashCode` hashes `this.data` as stored, trailing zero words included, so
`A = new BitSet(); A.set(0)` (stored `[1]`) and
`B = new BitSet(17); B.set(0)` (stored `[1, 0]`) compare `equals` yet hash
differently. -/
theorem claim_C5_equal_sets_unequal_hash :
    BitSet.setBit ⟨[]⟩ 0 = some ⟨[1]⟩ ∧
    fromNbits 17 = some ⟨[0, 0]⟩ ∧
    BitSet.setBit ⟨[0, 0]⟩ 0 = some ⟨[1, 0]⟩ ∧
    BitSet.equals ⟨[1]⟩ ⟨[1, 0]⟩ = some true ∧
    BitSet.hashCode ⟨[1]⟩ ≠ BitSet.hashCode ⟨[1, 0]⟩ := by decide

/-- C6: the claim states that `nextClearBit` only reports indices within
the explicitly stored words and returns `-1` when the scan runs off the
store, never an index at or beyond `16 × word count`.  The code violates
it: the entry check is the strict `word > length`, so when the start word
equals the word count the (absent, hence conceptually zero) word is scanned
and an index at or past the capacity is returned — `new BitSet()` has
capacity 0 yet `nextClearBit(0)` returns 0, and a one-word all-ones set has
capacity 16 yet `nextClearBit(16)` returns 16. -/
theorem claim_C6_nextClearBit_beyond_capacity :
    BitSet.nextClearBit ⟨[]⟩ 0 = some 0 ∧
    BitSet.size ⟨[]⟩ = 0 ∧
    BitSet.nextClearBit ⟨[65535]⟩ 16 = some 16 ∧
    BitSet.size ⟨[65535]⟩ = 16 := by decide

/-- C7: the claim states that every public operation receiving a negative
bit index fails with a range error.  The code violates it for `get`: the
single-bit `get` performs no validation, so `get(-1)` silently computes
word index `(-1) >>> 4 = 2^28 - 1` and returns `false` instead of throwing,
while `set` and `flip` (modelled as `none`) do throw. -/
theorem claim_C7_get_accepts_negative_index :
    BitSet.get ⟨[]⟩ (-1) = false ∧
    BitSet.get ⟨[32768]⟩ (-1) = false ∧
    BitSet.setBit ⟨[]⟩ (-1) = none ∧
    BitSet.flipBit ⟨[]⟩ (-1) = none := by decide

/-- C8 counterexample: the claim states that `new BitSet(); set(0, 20)`
sets bits 0..19 and yields cardinality 20; the code's range `set` treats
`toIndex` as inclusive, so the cardinality is 21, not 20. -/
theorem claim_C8_counterexample :
    (BitSet.setRange ⟨[]⟩ 0 20).bind BitSet.cardinality ≠ some 20 := by decide

/-- C8 amended: after `E = new BitSet(); E.set(0, 20)` the bits 0..20
inclusive are set (the stored words are `[0xFFFF, 0x001F]`), bit 21 is
clear, and `E.cardinality()` is 21. -/
theorem claim_C8_set_range_inclusive :
    BitSet.setRange ⟨[]⟩ 0 20 = some ⟨[65535, 31]⟩ ∧
    ((List.range 21).all fun k => BitSet.get ⟨[65535, 31]⟩ (k : Int)) = true ∧
    BitSet.get ⟨[65535, 31]⟩ 21 = false ∧
    BitSet.cardinality ⟨[65535, 31]⟩ = some 21 := by decide

/-- C9: constructing a BitSet from an empty iterable of numbers, or from a
non-BitSet iterable whose maximum element is 0 (equivalently, any all-zero
element list), allocates exactly 2^28 words and the `size` getter reports
2^32 bits, because `getIndex(max - 1)` applies `>>> 4` to `-1` or `-2`. -/
theorem claim_C9_degenerate_allocation (l : List Nat) (h : ∀ v ∈ l, v = 0) :
    ∃ b, fromNumbers l = some b ∧ b.data.length = 2 ^ 28 ∧ b.size = 2 ^ 32 := by
  have hcnt1 : getIndex (-1 - 1) + 1 = 2 ^ 28 := by decide
  have hcnt2 : getIndex (0 - 1) + 1 = 2 ^ 28 := by decide
  simp only [fromNumbers]
  rcases foldl_max_of_all_zero l h with hm | hm <;> rw [hm]
  · obtain ⟨b', hb', hl'⟩ := foldlM_setBit_all_zero l h
      ⟨List.replicate (getIndex (-1 - 1) + 1) 0⟩ (by simp [hcnt1])
    refine ⟨b', hb', ?_, ?_⟩
    · simp only [hl']; simp [hcnt1]; decide
    · simp only [BitSet.size, hl']; simp [hcnt1]; decide
  · obtain ⟨b', hb', hl'⟩ := foldlM_setBit_all_zero l h
      ⟨List.replicate (getIndex (0 - 1) + 1) 0⟩ (by simp [hcnt2])
    refine ⟨b', hb', ?_, ?_⟩
    · simp only [hl']; simp [hcnt2]; decide
    · simp only [BitSet.size, hl']; simp [hcnt2]; decide

/-- C9 witness: instantiating the theorem at the concrete list `[0]`. -/
theorem claim_C9_witness :
    ∃ b, fromNumbers [0] = some b ∧ b.data.length = 2 ^ 28 ∧ b.size = 2 ^ 32 :=
  claim_C9_degenerate_allocation [0] (by decide)

/-- C10: on an empty BitSet (word store of length 0), `previousClearBit`
at any `fromIndex` from 0 to 14 returns `fromIndex - 16`, a negative value
different from `-1`: the start word is clamped to `length - 1 = -1`, the
out-of-bounds read behaves as 0, and the result is
`unIndex(-1) + findMSBSet(bitsFor(0, fromIndex)) = -16 + fromIndex`. -/
theorem claim_C10_previousClearBit_empty :
    ∀ i : Nat, i < 15 →
      BitSet.previousClearBit ⟨[]⟩ (i : Int) = some ((i : Int) - 16) ∧
      (i : Int) - 16 ≠ -1 := by decide

/-- C10 witness: at `fromIndex = 3` the result is `-13`. -/
theorem claim_C10_witness :
    BitSet.previousClearBit ⟨[]⟩ ((3 : Nat) : Int) = some (((3 : Nat) : Int) - 16) ∧
    ((3 : Nat) : Int) - 16 ≠ -1 :=
  claim_C10_previousClearBit_empty 3 (by decide)

end Antlr4ts
